import Mathlib

/-!
Verification development for the recipe-manager application
(`src/models.py`, `src/app.py`).

The Python code is shallowly embedded: SQLAlchemy entities become
structures, the database becomes association lists, floats become exact
rationals `ℚ`, nullable columns become `Option`, and every route handler
that the claims mention becomes a pure function on an explicit store.
Python truthiness tests (`if recipe.servings`, `if self.amount`,
`x or default`) are translated exactly as the interpreter evaluates them
on the types that can actually occur (`None`, numbers, strings).
-/

namespace RecipeManager

/-! ## Data model (`src/models.py`)

`Ingredient` mirrors the `Ingredient` model: `name` (non-null column),
`amount` (nullable float), `unit` (nullable string).  `Recipe` mirrors the
scalar columns the claims use plus the owned, insertion-ordered
ingredient list provided by the ORM relationship. -/

structure Ingredient where
  name : String
  amount : Option ℚ
  unit : Option String
deriving DecidableEq, Repr

structure Recipe where
  title : String
  description : Option String := none
  category : String := "Dinner"
  servings : Option ℤ := some 4
  updated_at : ℕ := 0
  ingredients : List Ingredient := []
deriving DecidableEq, Repr

/-- A database of recipes keyed by primary key, as `Recipe.query.get`
sees it. -/
abbrev DB := List (ℕ × Recipe)

/-- Lookup by key in an association list; first match wins, like a
primary-key lookup or a Python `dict` access. -/
def findKey {α β : Type} [DecidableEq α] (k : α) : List (α × β) → Option β
  | [] => none
  | kv :: rest => if kv.1 = k then some kv.2 else findKey k rest

/-- Python's `str.lower()`: lowercase every character. -/
def strLower (s : String) : String := ⟨s.data.map Char.toLower⟩

/-! ## Scaling engine (`Ingredient.scaled`, `src/models.py` lines 74-80)

Python's `round(x, 2)` rounds to two decimal places with ties going to
the even hundredth; `pyRound` is that tie-to-even integer rounding and
`round2` scales it to hundredths. -/

/-- Round a rational to the nearest integer, ties to even, as Python's
builtin `round` does. -/
def pyRound (x : ℚ) : ℤ :=
  let f : ℤ := ⌊x⌋
  if x - f < 1/2 then f
  else if x - f > 1/2 then f + 1
  else if Even f then f else f + 1

/-- Python's `round(x, 2)`. -/
def round2 (x : ℚ) : ℚ := (pyRound (x * 100) : ℚ) / 100

/-- The value object returned by `Ingredient.scaled`: a dict
`{name, amount, unit}`. -/
structure ScaledIngredient where
  name : String
  amount : Option ℚ
  unit : Option String
deriving DecidableEq, Repr

/-- Translation of `Ingredient.scaled`.  The source guards on the
truthiness of `self.amount`: both `None` and `0.0` are falsy, so both
produce `amount = None`. -/
def Ingredient.scaled (i : Ingredient) (multiplier : ℚ) : ScaledIngredient :=
  { name := i.name
  , amount :=
      match i.amount with
      | none => none
      | some a => if a = 0 then none else some (round2 (a * multiplier))
  , unit := i.unit }

/-- Translation of `desired / recipe.servings if recipe.servings else 1`
(`src/app.py` lines 54 and 174).  `recipe.servings` is truthy exactly
when it is a non-`None`, non-zero integer. -/
def multiplierFrom (desired : ℤ) : Option ℤ → ℚ
  | none => 1
  | some s => if s = 0 then 1 else (desired : ℚ) / (s : ℚ)

/-- The effective servings value in `view_recipe`:
`request.args.get('servings', recipe.servings, type=int)` returns the
query parameter when present and `recipe.servings` otherwise. -/
def viewEffectiveServings (requested : Option ℤ) (r : Recipe) : Option ℤ :=
  match requested with
  | some v => some v
  | none => r.servings

/-- The multiplier computed by `view_recipe` (`src/app.py` lines 53-54). -/
def viewMultiplier (requested : Option ℤ) (r : Recipe) : ℚ :=
  match r.servings with
  | none => 1
  | some s =>
      if s = 0 then 1
      else (((viewEffectiveServings requested r).getD 0 : ℤ) : ℚ) / (s : ℚ)

/-! ## Shopping-list aggregator (`shopping_list`, `src/app.py` lines 154-197)

The Python dict `ingredient_totals` keyed by
`(ing.name.lower(), ing.unit or '')` becomes an association list that
preserves insertion order; `bump` is one loop iteration over an
ingredient. -/

/-- A dedup key: lowercased ingredient name and unit defaulted to the
empty string. -/
abbrev Key := String × String

/-- One entry of the shopping list:
`{name, amount, unit, recipes}`. -/
structure ShoppingItem where
  name : String
  amount : ℚ
  unit : String
  recipes : List String
deriving DecidableEq, Repr

abbrev AggMap := List (Key × ShoppingItem)

/-- One iteration of the inner aggregation loop: if the key is present
update the entry in place (add to the amount, append the recipe title),
otherwise insert a fresh entry at the end — exactly the behaviour of the
insertion-ordered Python dict. -/
def bump (key : Key) (nm : String) (amt : ℚ) (ttl : String) : AggMap → AggMap
  | [] => [(key, { name := nm, amount := amt, unit := key.2, recipes := [ttl] })]
  | kv :: rest =>
      if kv.1 = key then
        (kv.1, { kv.2 with amount := kv.2.amount + amt
                         , recipes := kv.2.recipes ++ [ttl] }) :: rest
      else kv :: bump key nm amt ttl rest

/-- One ingredient occurrence inside a selected, resolved recipe: the raw
ingredient fields together with the recipe's multiplier and title. -/
structure Occ where
  ingName : String
  ingAmount : Option ℚ
  ingUnit : Option String
  mult : ℚ
  rtitle : String
deriving DecidableEq, Repr

/-- The dedup key of an occurrence: `(ing.name.lower(), ing.unit or '')`.
`Option.getD ""` agrees with Python's `or ''` on both `None` and `''`. -/
def Occ.key (o : Occ) : Key := (strLower o.ingName, o.ingUnit.getD "")

/-- The scaled contribution of an occurrence:
`(ing.amount or 0) * multiplier`. -/
def Occ.scaledAmt (o : Occ) : ℚ := o.ingAmount.getD 0 * o.mult

def ingOcc (title : String) (m : ℚ) (ing : Ingredient) : Occ :=
  { ingName := ing.name, ingAmount := ing.amount, ingUnit := ing.unit
  , mult := m, rtitle := title }

def stepOcc (acc : AggMap) (o : Occ) : AggMap :=
  bump o.key o.ingName o.scaledAmt o.rtitle acc

/-- Processing of one selection `(recipe_id, requested_servings)`: resolve
the id (`Recipe.query.get`), silently skip on failure, otherwise fold the
recipe's ingredients into the totals.  The requested servings default to
4 (`request.form.get(f'servings_{recipe_id}', 4)`). -/
def processSelection (db : DB) (acc : AggMap) (sel : ℕ × Option ℤ) : AggMap :=
  match findKey sel.1 db with
  | none => acc
  | some r =>
      r.ingredients.foldl
        (fun a ing => stepOcc a (ingOcc r.title (multiplierFrom (sel.2.getD 4) r.servings) ing))
        acc

/-- The `ingredient_totals` dict after the two nested loops. -/
def ingredientTotals (db : DB) (sels : List (ℕ × Option ℤ)) : AggMap :=
  sels.foldl (processSelection db) []

/-- The sort key comparison of
`sorted(ingredient_totals.values(), key=lambda x: x['name'].lower())`. -/
def itemLe (a b : ShoppingItem) : Bool := decide (strLower a.name ≤ strLower b.name)

/-- The final shopping list: the accumulated values sorted stably by
lowercased display name. -/
def shoppingItems (db : DB) (sels : List (ℕ × Option ℤ)) : List ShoppingItem :=
  List.mergeSort ((ingredientTotals db sels).map (fun kv => kv.2)) itemLe

/-- The flattened sequence of ingredient occurrences the aggregation
loops visit, in visiting order. -/
def occsOfSelection (db : DB) (sel : ℕ × Option ℤ) : List Occ :=
  match findKey sel.1 db with
  | none => []
  | some r => r.ingredients.map (ingOcc r.title (multiplierFrom (sel.2.getD 4) r.servings))

def occurrences (db : DB) (sels : List (ℕ × Option ℤ)) : List Occ :=
  sels.flatMap (occsOfSelection db)

/-- The occurrences whose dedup key is `k`. -/
def keyGroup (k : Key) (occs : List Occ) : List Occ :=
  occs.filter (fun o => decide (o.key = k))

/-! ## Search and filter (`index`, `src/app.py` lines 19-46)

The SQL query builds `ILIKE '%search%'` disjuncts over title, description
and any joined ingredient name, `DISTINCT`s the result, optionally filters
on exact category, and orders by `updated_at DESC`.  On the list model
this is filtering followed by a stable sort; a `NULL` description matches
nothing. -/

/-- Whether `needle` starts `hay` (character lists). -/
def charsStartWith : List Char → List Char → Bool
  | [], _ => true
  | _ :: _, [] => false
  | a :: as, b :: bs => a = b && charsStartWith as bs

/-- Whether `needle` occurs contiguously inside `hay` (character lists). -/
def charsContain (needle : List Char) : List Char → Bool
  | [] => decide (needle = [])
  | c :: t => charsStartWith needle (c :: t) || charsContain needle t

/-- Case-insensitive substring test, the semantics of
`column ILIKE '%needle%'`. -/
def containsCI (hay needle : String) : Bool :=
  charsContain (strLower needle).data (strLower hay).data

/-- The `OR` of the three `ILIKE` disjuncts of the search query. -/
def matchesSearch (s : String) (r : Recipe) : Bool :=
  containsCI r.title s
    || (match r.description with
        | some d => containsCI d s
        | none => false)
    || r.ingredients.any (fun i => containsCI i.name s)

/-- The comparison of `ORDER BY updated_at DESC`. -/
def recLe (a b : ℕ × Recipe) : Bool := decide (b.2.updated_at ≤ a.2.updated_at)

/-- Translation of the `index` query: apply the search filter when
`search` is non-empty, then the category filter when `category` is
non-empty, then order by `updated_at` descending. -/
def findRecipes (db : DB) (search category : String) : DB :=
  let q := db
  let q := if search ≠ "" then q.filter (fun p => matchesSearch search p.2) else q
  let q := if category ≠ "" then q.filter (fun p => decide (p.2.category = category)) else q
  List.mergeSort q recLe

/-! ## Stored state and the mutating routes
(`new_recipe`, `edit_recipe`, `delete_recipe`, `src/app.py` lines 64-151)

Ingredient rows live in their own table carrying a `recipe_id` foreign
key; the declared ORM cascade (`cascade='all, delete-orphan'`,
`src/models.py` line 30) makes `delete` and `ingredients.clear()` remove
the owned rows.  A route that aborts (missing form key, 404) commits
nothing, which the model renders as `Except.error ()` with the store
unchanged. -/

/-- Python's `str.strip()` on the characters of a string. -/
def stripChars (l : List Char) : List Char :=
  ((l.dropWhile Char.isWhitespace).reverse.dropWhile Char.isWhitespace).reverse

/-- Python's `name.strip()`. -/
def pyStrip (s : String) : String := ⟨stripChars s.data⟩

/-- A persisted ingredient row (`Ingredient` table). -/
structure IngRow where
  recipe_id : ℕ
  name : String
  amount : Option ℚ
  unit : Option String
deriving DecidableEq, Repr

/-- The scalar columns of a persisted recipe row. -/
structure RecipeRow where
  title : String
  description : String
  category : String
  servings : ℤ
  prep_time : Option ℤ
  cook_time : Option ℤ
  instructions : String
deriving DecidableEq, Repr

/-- A submitted recipe form.  `title` is `none` when the field is absent
(`request.form['title']` then raises); the other scalar fields use
`request.form.get` defaults.  The three parallel ingredient arrays are
zipped positionally. -/
structure RecipeForm where
  title : Option String := none
  description : Option String := none
  category : Option String := none
  servings : Option ℤ := none
  prep_time : Option ℤ := none
  cook_time : Option ℤ := none
  instructions : Option String := none
  ingredient_names : List String := []
  ingredient_amounts : List (Option ℚ) := []
  ingredient_units : List String := []
deriving DecidableEq, Repr

/-- The stored state: the recipe table keyed by primary key, the
ingredient rows, and the next key the storage will assign. -/
structure Store where
  recipes : List (ℕ × RecipeRow)
  ingRows : List IngRow
  nextId : ℕ
deriving DecidableEq, Repr

/-- The zipped `(name, amount, unit)` triples of the submitted form. -/
def formRows (f : RecipeForm) : List (String × Option ℚ × String) :=
  f.ingredient_names.zip (f.ingredient_amounts.zip f.ingredient_units)

/-- The ingredient triples a submission persists: rows whose name is
empty after stripping are dropped, and the stored name is the stripped
one (`if name.strip(): Ingredient(name=name.strip(), ...)`). -/
def buildIngredients (f : RecipeForm) : List (String × Option ℚ × String) :=
  ((formRows f).filter (fun t => decide (pyStrip t.1 ≠ ""))).map
    (fun t => (pyStrip t.1, t.2.1, t.2.2))

/-- The scalar recipe row a submission with title `t` persists. -/
def rowOfForm (t : String) (f : RecipeForm) : RecipeRow :=
  { title := t
  , description := f.description.getD ""
  , category := f.category.getD "Dinner"
  , servings := f.servings.getD 4
  , prep_time := f.prep_time
  , cook_time := f.cook_time
  , instructions := f.instructions.getD "" }

/-- The ingredient rows persisted for recipe `rid`. -/
def rowsFor (rid : ℕ) (f : RecipeForm) : List IngRow :=
  (buildIngredients f).map
    (fun t => { recipe_id := rid, name := t.1, amount := t.2.1, unit := some t.2.2 })

/-- Translation of the `new_recipe` POST handler. -/
def newRecipe (st : Store) (f : RecipeForm) : Except Unit Store :=
  match f.title with
  | none => Except.error ()
  | some t =>
      Except.ok
        { recipes := st.recipes ++ [(st.nextId, rowOfForm t f)]
        , ingRows := st.ingRows ++ rowsFor st.nextId f
        , nextId := st.nextId + 1 }

/-- Translation of the `edit_recipe` POST handler: 404 when the id does
not resolve, otherwise replace the scalar row and the full ingredient
set (`recipe.ingredients.clear()` plus re-insertion). -/
def editRecipe (st : Store) (rid : ℕ) (f : RecipeForm) : Except Unit Store :=
  match findKey rid st.recipes with
  | none => Except.error ()
  | some _ =>
      match f.title with
      | none => Except.error ()
      | some t =>
          Except.ok
            { recipes := st.recipes.map (fun p => if p.1 = rid then (rid, rowOfForm t f) else p)
            , ingRows := st.ingRows.filter (fun i => decide (i.recipe_id ≠ rid)) ++ rowsFor rid f
            , nextId := st.nextId }

/-- Translation of the `delete_recipe` handler: 404 when the id does not
resolve, otherwise delete the recipe row and, via the declared cascade,
every owned ingredient row. -/
def deleteRecipe (st : Store) (rid : ℕ) : Except Unit Store :=
  match findKey rid st.recipes with
  | none => Except.error ()
  | some _ =>
      Except.ok
        { recipes := st.recipes.filter (fun p => decide (p.1 ≠ rid))
        , ingRows := st.ingRows.filter (fun i => decide (i.recipe_id ≠ rid))
        , nextId := st.nextId }

/-- Referential integrity: every stored ingredient row points to an
existing recipe row. -/
def refIntegrity (st : Store) : Prop :=
  ∀ i ∈ st.ingRows, ∃ p ∈ st.recipes, p.1 = i.recipe_id

/-- The persisted-name invariant: every stored ingredient has a
non-empty name equal to its whitespace-stripped form. -/
def ingNamesOk (st : Store) : Prop :=
  ∀ i ∈ st.ingRows, pyStrip i.name = i.name ∧ i.name ≠ ""

/-! ## Specification helpers for the aggregation

`mergeInto` and `itemOfGroup` describe what one shopping item must look
like in terms of the flat occurrence list; the fold characterisation
below connects them to the imperative accumulation. -/

/-- Extend an existing item with a further group of occurrences of its
key. -/
def mergeInto (it : ShoppingItem) (g : List Occ) : ShoppingItem :=
  { it with amount := it.amount + (g.map Occ.scaledAmt).sum
          , recipes := it.recipes ++ g.map Occ.rtitle }

/-- The item produced by a (possibly empty) group of occurrences of key
`k`, the first occurrence supplying the display name. -/
def itemOfGroup (k : Key) : List Occ → Option ShoppingItem
  | [] => none
  | o :: g =>
      some { name := o.ingName
           , amount := Occ.scaledAmt o + (g.map Occ.scaledAmt).sum
           , unit := k.2
           , recipes := o.rtitle :: g.map Occ.rtitle }

/-! ## Concrete states used by the witnesses and counterexamples -/

/-- A two-recipe state witnessing that aggregation output depends on
selection order: recipe 1 spells the ingredient `Flour`, recipe 2 spells
it `flour`, and both share the dedup key `("flour", "cup")`. -/
def dbFlour : DB :=
  [ (1, { title := "A", servings := some 1
        , ingredients := [{ name := "Flour", amount := some 1, unit := some "cup" }] })
  , (2, { title := "B", servings := some 1
        , ingredients := [{ name := "flour", amount := some 1, unit := some "cup" }] }) ]

/-- A one-recipe state with two ingredient spellings sharing the dedup
key `("sugar", "cup")`; servings are stored as `0` so the multiplier
degrades to `1`. -/
def dbSugar : DB :=
  [ (1, { title := "R", servings := some 0
        , ingredients := [ { name := "Sugar", amount := some 1, unit := some "cup" }
                         , { name := "sugar", amount := some 2, unit := some "cup" } ] }) ]

def occSugar1 : Occ :=
  { ingName := "Sugar", ingAmount := some 1, ingUnit := some "cup", mult := 1, rtitle := "R" }

def occSugar2 : Occ :=
  { ingName := "sugar", ingAmount := some 2, ingUnit := some "cup", mult := 1, rtitle := "R" }

def dbEmptyRec : DB :=
  [ (1, { title := "E", servings := some 0, ingredients := [] }) ]

def recPie : Recipe :=
  { title := "Apple Pie", description := some "a dessert", category := "Dessert"
  , servings := some 4, updated_at := 5
  , ingredients := [ { name := "apple", amount := some 3, unit := none } ] }

def formCake : RecipeForm :=
  { title := some "Cake"
  , ingredient_names := ["  Flour ", "  "]
  , ingredient_amounts := [some 1, none]
  , ingredient_units := ["cup", "g"] }

def rowLemon : RecipeRow :=
  { title := "Lemonade", description := "", category := "Drink", servings := 2
  , prep_time := none, cook_time := none, instructions := "" }

/-! ## Lemmas about `findKey` and `bump` -/

theorem findKey_eq_none {α β : Type} [DecidableEq α] (k : α) (l : List (α × β)) :
    findKey k l = none ↔ k ∉ l.map Prod.fst := by
  induction l with
  | nil => simp [findKey]
  | cons kv rest ih =>
      by_cases h : kv.1 = k
      · simp [findKey, h]
      · have h' : ¬ k = kv.1 := fun hh => h hh.symm
        simp [findKey, h, ih, h']

theorem findKey_bump (key : Key) (nm : String) (amt : ℚ) (ttl : String) (acc : AggMap)
    (k : Key) :
    findKey k (bump key nm amt ttl acc) =
      if k = key then
        match findKey k acc with
        | some it => some { it with amount := it.amount + amt, recipes := it.recipes ++ [ttl] }
        | none => some { name := nm, amount := amt, unit := key.2, recipes := [ttl] }
      else findKey k acc := by
  induction acc with
  | nil =>
      by_cases h : k = key
      · simp [bump, findKey, h]
      · have h' : ¬ key = k := fun hh => h hh.symm
        simp [bump, findKey, h, h']
  | cons kv rest ih =>
      by_cases hkv : kv.1 = key
      · by_cases hk : k = key
        · simp [bump, findKey, hkv, hk, hkv.trans hk.symm]
        · have h1 : ¬ kv.1 = k := fun hh => hk (hh.symm.trans hkv)
          have h2 : ¬ key = k := fun hh => hk hh.symm
          simp [bump, findKey, hkv, hk, h1, h2]
      · by_cases h1 : kv.1 = k
        · have hk : ¬ k = key := fun hh => hkv (h1.trans hh)
          simp [bump, findKey, hkv, hk, h1]
        · simp [bump, findKey, hkv, h1, ih]

theorem map_fst_bump (key : Key) (nm : String) (amt : ℚ) (ttl : String) (acc : AggMap) :
    (bump key nm amt ttl acc).map Prod.fst =
      if key ∈ acc.map Prod.fst then acc.map Prod.fst
      else acc.map Prod.fst ++ [key] := by
  induction acc with
  | nil => simp [bump]
  | cons kv rest ih =>
      by_cases h : kv.1 = key
      · simp [bump, h]
      · have h' : ¬ key = kv.1 := fun hh => h hh.symm
        by_cases hmem : key ∈ rest.map Prod.fst
        · simp [bump, h, ih, h', hmem]
        · simp [bump, h, ih, h', hmem]

/-! ## The fold characterisation of the accumulation -/

theorem findKey_foldl_stepOcc (occs : List Occ) (acc : AggMap) (k : Key) :
    findKey k (occs.foldl stepOcc acc) =
      match findKey k acc with
      | some it => some (mergeInto it (keyGroup k occs))
      | none => itemOfGroup k (keyGroup k occs) := by
  induction occs generalizing acc with
  | nil =>
      cases h : findKey k acc <;> simp [keyGroup, mergeInto, itemOfGroup, h]
  | cons o rest ih =>
      rw [List.foldl_cons, ih]
      have hb := findKey_bump o.key o.ingName o.scaledAmt o.rtitle acc k
      by_cases hk : k = o.key
      · have hgrp : keyGroup k (o :: rest) = o :: keyGroup k rest := by
          simp [keyGroup, List.filter_cons, hk.symm]
        rw [hgrp]
        cases h : findKey k acc with
        | some it =>
            rw [stepOcc, hb, if_pos hk, h]
            simp [mergeInto, add_assoc]
        | none =>
            rw [stepOcc, hb, if_pos hk, h]
            simp [mergeInto, itemOfGroup, hk]
      · have hk' : ¬ o.key = k := fun hh => hk hh.symm
        have hgrp : keyGroup k (o :: rest) = keyGroup k rest := by
          simp [keyGroup, List.filter_cons, hk']
        rw [hgrp, stepOcc, hb, if_neg hk]

/-- The two nested loops of `shopping_list` visit exactly the flattened
occurrence sequence. -/
theorem foldl_processSelection_eq (db : DB) (sels : List (ℕ × Option ℤ)) (acc : AggMap) :
    sels.foldl (processSelection db) acc = (occurrences db sels).foldl stepOcc acc := by
  induction sels generalizing acc with
  | nil => simp [occurrences]
  | cons sel rest ih =>
      have h1 : processSelection db acc sel = (occsOfSelection db sel).foldl stepOcc acc := by
        unfold processSelection occsOfSelection
        cases findKey sel.1 db <;> simp [List.foldl_map]
      rw [List.foldl_cons, ih, h1]
      simp only [occurrences, List.flatMap_cons, List.foldl_append]

theorem ingredientTotals_eq (db : DB) (sels : List (ℕ × Option ℤ)) :
    ingredientTotals db sels = (occurrences db sels).foldl stepOcc [] :=
  foldl_processSelection_eq db sels []

/-- What the accumulated totals hold at each key, in terms of the flat
occurrence list. -/
theorem findKey_ingredientTotals (db : DB) (sels : List (ℕ × Option ℤ)) (k : Key) :
    findKey k (ingredientTotals db sels) =
      itemOfGroup k (keyGroup k (occurrences db sels)) := by
  rw [ingredientTotals_eq, findKey_foldl_stepOcc]
  simp [findKey]

theorem itemOfGroup_eq_none (k : Key) (g : List Occ) :
    itemOfGroup k g = none ↔ g = [] := by
  cases g <;> simp [itemOfGroup]

theorem mem_map_fst_foldl (occs : List Occ) (acc : AggMap) (k : Key) :
    k ∈ (occs.foldl stepOcc acc).map Prod.fst ↔
      k ∈ acc.map Prod.fst ∨ ∃ o ∈ occs, Occ.key o = k := by
  have h1 := findKey_eq_none k (occs.foldl stepOcc acc)
  have h2 := findKey_foldl_stepOcc occs acc k
  constructor
  · intro hmem
    by_contra hcon
    push_neg at hcon
    have hacc : findKey k acc = none := (findKey_eq_none k acc).mpr hcon.1
    have hgrp : keyGroup k occs = [] := by
      simp only [keyGroup, List.filter_eq_nil_iff]
      intro o ho
      simp only [decide_eq_true_eq]
      exact hcon.2 o ho
    rw [hacc, hgrp] at h2
    simp only [itemOfGroup] at h2
    exact (h1.mp h2) hmem
  · intro hmem
    by_contra hcon
    have hnone : findKey k (occs.foldl stepOcc acc) = none := h1.mpr hcon
    rw [hnone] at h2
    cases hmem with
    | inl hl =>
        cases hacc : findKey k acc with
        | none => exact (findKey_eq_none k acc).mp hacc hl
        | some it => rw [hacc] at h2; simp at h2
    | inr hr =>
        obtain ⟨o, ho, hko⟩ := hr
        cases hacc : findKey k acc with
        | none =>
            rw [hacc] at h2
            have : keyGroup k occs = [] := (itemOfGroup_eq_none k _).mp h2.symm
            have : o ∈ keyGroup k occs := by
              simp [keyGroup, List.mem_filter, ho, hko]
            simp_all
        | some it => rw [hacc] at h2; simp at h2

theorem nodup_map_fst_foldl (occs : List Occ) (acc : AggMap)
    (h : (acc.map Prod.fst).Nodup) :
    ((occs.foldl stepOcc acc).map Prod.fst).Nodup := by
  induction occs generalizing acc with
  | nil => simpa using h
  | cons o rest ih =>
      rw [List.foldl_cons]
      apply ih
      rw [stepOcc, map_fst_bump]
      by_cases hmem : o.key ∈ acc.map Prod.fst
      · simpa [hmem] using h
      · simp [hmem, List.nodup_append, h]

/-- The number of accumulated entries is the number of distinct dedup
keys among the occurrences. -/
theorem length_ingredientTotals (db : DB) (sels : List (ℕ × Option ℤ)) :
    (ingredientTotals db sels).length =
      ((occurrences db sels).map Occ.key).toFinset.card := by
  have hnd : ((ingredientTotals db sels).map Prod.fst).Nodup := by
    rw [ingredientTotals_eq]
    exact nodup_map_fst_foldl _ [] (by simp)
  have hset : ((ingredientTotals db sels).map Prod.fst).toFinset =
      ((occurrences db sels).map Occ.key).toFinset := by
    ext a
    simp only [List.mem_toFinset, List.mem_map]
    rw [ingredientTotals_eq]
    have := mem_map_fst_foldl (occurrences db sels) [] a
    simp only [List.map_nil, List.not_mem_nil, false_or] at this
    rw [← List.mem_map] at this ⊢
    simpa [List.mem_map] using this
  calc (ingredientTotals db sels).length
      = ((ingredientTotals db sels).map Prod.fst).length := by simp
    _ = ((ingredientTotals db sels).map Prod.fst).toFinset.card :=
        (List.toFinset_card_of_nodup hnd).symm
    _ = ((occurrences db sels).map Occ.key).toFinset.card := by rw [hset]

/-! ## Lemmas about the final sort -/

theorem itemLe_trans (a b c : ShoppingItem) (h1 : itemLe a b) (h2 : itemLe b c) :
    itemLe a c := by
  simp only [itemLe, decide_eq_true_eq] at h1 h2 ⊢
  exact le_trans h1 h2

theorem itemLe_total (a b : ShoppingItem) : itemLe a b || itemLe b a := by
  simp only [itemLe, Bool.or_eq_true, decide_eq_true_eq]
  exact le_total _ _

theorem pairwise_shoppingItems (db : DB) (sels : List (ℕ × Option ℤ)) :
    (shoppingItems db sels).Pairwise (fun a b => strLower a.name ≤ strLower b.name) := by
  have h := List.sorted_mergeSort itemLe_trans itemLe_total
    ((ingredientTotals db sels).map (fun kv => kv.2))
  exact h.imp (by intro a b hab; simpa [itemLe] using hab)

/-- Stability of the final sort: within one class of equal lowercased
names, the sorted output lists the items in accumulation (insertion)
order. -/
theorem filter_shoppingItems (db : DB) (sels : List (ℕ × Option ℤ)) (s : String) :
    (shoppingItems db sels).filter (fun x => decide (strLower x.name = s)) =
      ((ingredientTotals db sels).map (fun kv => kv.2)).filter
        (fun x => decide (strLower x.name = s)) := by
  set p : ShoppingItem → Bool := fun x => decide (strLower x.name = s) with hp
  set vals : List ShoppingItem := (ingredientTotals db sels).map (fun kv => kv.2) with hv
  have hpair : (vals.filter p).Pairwise (fun a b => itemLe a b) := by
    apply List.pairwise_of_forall_mem_list
    intro a ha b hb
    have ha' := (List.mem_filter.mp ha).2
    have hb' := (List.mem_filter.mp hb).2
    simp only [hp, decide_eq_true_eq] at ha' hb'
    simp [itemLe, ha', hb']
  have hsub : List.Sublist (vals.filter p) (List.mergeSort vals itemLe) :=
    List.sublist_mergeSort itemLe_trans itemLe_total hpair (List.filter_sublist vals)
  have hperm : List.Perm ((List.mergeSort vals itemLe).filter p) (vals.filter p) :=
    (List.mergeSort_perm vals itemLe).filter p
  have hself : (vals.filter p).filter p = vals.filter p :=
    List.filter_eq_self.mpr (fun a ha => (List.mem_filter.mp ha).2)
  have hsub2 : List.Sublist (vals.filter p) ((List.mergeSort vals itemLe).filter p) := by
    have := hsub.filter p
    rwa [hself] at this
  have hlen : (vals.filter p).length = ((List.mergeSort vals itemLe).filter p).length :=
    (hperm.length_eq).symm
  have := hsub2.eq_of_length hlen
  rw [shoppingItems]
  exact this.symm

/-! ## Permutation lemmas for the aggregation -/

theorem occurrences_perm (db : DB) {sels sels' : List (ℕ × Option ℤ)}
    (h : List.Perm sels sels') :
    List.Perm (occurrences db sels) (occurrences db sels') :=
  List.Perm.flatMap_right (occsOfSelection db) h

theorem findKey_totals_amount_unit (db : DB) (sels : List (ℕ × Option ℤ)) (k : Key) :
    (findKey k (ingredientTotals db sels)).map (fun it => (it.amount, it.unit)) =
      if keyGroup k (occurrences db sels) = [] then none
      else some (((keyGroup k (occurrences db sels)).map Occ.scaledAmt).sum, k.2) := by
  rw [findKey_ingredientTotals]
  cases h : keyGroup k (occurrences db sels) <;> simp [itemOfGroup, h]

theorem nodup_keys_ingredientTotals (db : DB) (sels : List (ℕ × Option ℤ)) :
    ((ingredientTotals db sels).map Prod.fst).Nodup := by
  rw [ingredientTotals_eq]
  exact nodup_map_fst_foldl _ [] (by simp)

theorem mem_keys_ingredientTotals (db : DB) (sels : List (ℕ × Option ℤ)) (k : Key) :
    k ∈ (ingredientTotals db sels).map Prod.fst ↔
      ∃ o ∈ occurrences db sels, Occ.key o = k := by
  rw [ingredientTotals_eq, mem_map_fst_foldl]
  simp

/-! ## Claim theorems about the aggregation -/

/-- C1: for every ingredient occurrence of a resolved recipe the dedup
key is `(lowercased name, unit-or-empty-string)`; occurrences are merged
into the same shopping item exactly when those keys agree (name
case-insensitively, unit by exact match after defaulting `None` to `""`),
and the merged amount is the sum of `(amount-or-0) * multiplier` over the
merged occurrences. -/
theorem aggregation_dedup_key_and_merge (db : DB) (sels : List (ℕ × Option ℤ)) (k : Key) :
    keyGroup k (occurrences db sels) =
      (occurrences db sels).filter
        (fun o => decide (strLower o.ingName = k.1 ∧ o.ingUnit.getD "" = k.2)) ∧
    findKey k (ingredientTotals db sels) =
      (match keyGroup k (occurrences db sels) with
        | [] => none
        | o :: g =>
            some { name := o.ingName
                 , amount := o.ingAmount.getD 0 * o.mult +
                     (g.map (fun o2 => o2.ingAmount.getD 0 * o2.mult)).sum
                 , unit := k.2
                 , recipes := o.rtitle :: g.map Occ.rtitle }) := by
  constructor
  · apply List.filter_congr
    intro o _
    simp [Occ.key, Prod.ext_iff]
  · have hf : Occ.scaledAmt = fun o2 => o2.ingAmount.getD 0 * o2.mult :=
      funext fun o => rfl
    rw [findKey_ingredientTotals]
    cases h : keyGroup k (occurrences db sels) <;>
      simp [itemOfGroup, Occ.scaledAmt, hf]

/-- C4: the shopping list is sorted by lowercased display name ascending;
items whose lowercased names tie appear in the insertion order of their
dedup keys (the sort is stable); and for each key the first occurrence
supplies the display name (original casing) and the unit, with every
occurrence contributing its recipe title to the provenance list in
order. -/
theorem shopping_list_sorted_stable_provenance (db : DB) (sels : List (ℕ × Option ℤ)) :
    (shoppingItems db sels).Pairwise (fun a b => strLower a.name ≤ strLower b.name) ∧
    (∀ s : String,
      (shoppingItems db sels).filter (fun x => decide (strLower x.name = s)) =
        ((ingredientTotals db sels).map (fun kv => kv.2)).filter
          (fun x => decide (strLower x.name = s))) ∧
    (∀ (k : Key) (o : Occ) (g : List Occ), keyGroup k (occurrences db sels) = o :: g →
      findKey k (ingredientTotals db sels) =
        some { name := o.ingName
             , amount := Occ.scaledAmt o + (g.map Occ.scaledAmt).sum
             , unit := o.ingUnit.getD ""
             , recipes := o.rtitle :: g.map Occ.rtitle }) := by
  refine ⟨pairwise_shoppingItems db sels, filter_shoppingItems db sels, ?_⟩
  intro k o g hgrp
  have ho : o ∈ keyGroup k (occurrences db sels) := by
    rw [hgrp]; exact List.mem_cons_self o g
  have hkey : Occ.key o = k := by
    have h2 := ho
    simp only [keyGroup, List.mem_filter, decide_eq_true_eq] at h2
    exact h2.2
  rw [findKey_ingredientTotals, hgrp]
  simp [itemOfGroup, ← hkey, Occ.key]

/-- C5 counterexample: permuting the selections changes the output
sequence — the display name keeps the casing of whichever selection came
first and the provenance list order flips, so the two outputs are not
identical. -/
theorem shopping_list_order_dependent :
    shoppingItems dbFlour [(1, some 1), (2, some 1)] ≠
      shoppingItems dbFlour [(2, some 1), (1, some 1)] := by
  simp +decide [shoppingItems, ingredientTotals, processSelection, findKey, stepOcc, bump,
    ingOcc, Occ.key, Occ.scaledAmt, multiplierFrom, dbFlour, List.mergeSort]

/-- C5 amended: aggregation is commutative with respect to selection
order up to the data the dedup keys determine — a permutation of the
selections yields the same dedup keys (up to permutation) and, for every
key, the same total amount and the same unit; display-name casing,
provenance order and the relative order of tied items may differ. -/
theorem shopping_list_totals_perm_invariant (db : DB) (sels sels' : List (ℕ × Option ℤ))
    (h : List.Perm sels sels') :
    List.Perm ((ingredientTotals db sels).map Prod.fst)
        ((ingredientTotals db sels').map Prod.fst) ∧
    ∀ k : Key,
      (findKey k (ingredientTotals db sels)).map (fun it => (it.amount, it.unit)) =
        (findKey k (ingredientTotals db sels')).map (fun it => (it.amount, it.unit)) := by
  have hocc := occurrences_perm db h
  constructor
  · apply List.perm_of_nodup_nodup_toFinset_eq
    · exact nodup_keys_ingredientTotals db sels
    · exact nodup_keys_ingredientTotals db sels'
    · ext a
      simp only [List.mem_toFinset]
      rw [mem_keys_ingredientTotals, mem_keys_ingredientTotals]
      constructor
      · rintro ⟨o, ho, hk⟩; exact ⟨o, hocc.mem_iff.mp ho, hk⟩
      · rintro ⟨o, ho, hk⟩; exact ⟨o, hocc.mem_iff.mpr ho, hk⟩
  · intro k
    rw [findKey_totals_amount_unit, findKey_totals_amount_unit]
    have hg : List.Perm (keyGroup k (occurrences db sels))
        (keyGroup k (occurrences db sels')) := hocc.filter _
    have hsum : ((keyGroup k (occurrences db sels)).map Occ.scaledAmt).sum =
        ((keyGroup k (occurrences db sels')).map Occ.scaledAmt).sum :=
      (hg.map Occ.scaledAmt).sum_eq
    by_cases he : keyGroup k (occurrences db sels) = []
    · have he' : keyGroup k (occurrences db sels') = [] := by
        have hl := hg.length_eq
        rw [he] at hl
        exact List.eq_nil_of_length_eq_zero hl.symm
      simp [he, he']
    · have he' : keyGroup k (occurrences db sels') ≠ [] := by
        intro hh
        apply he
        have hl := hg.length_eq
        rw [hh] at hl
        exact List.eq_nil_of_length_eq_zero hl
      simp [he, he', hsum]

/-- C6: aggregation is total and best-effort — an empty selection list
yields an empty list, a selection whose id does not resolve is skipped
silently, a resolved recipe without ingredients contributes nothing, and
the output length equals the number of distinct dedup keys over all
resolved selections' ingredient occurrences. -/
theorem shopping_list_total_and_length (db : DB) (rid : ℕ) (des : Option ℤ)
    (rest sels : List (ℕ × Option ℤ)) :
    shoppingItems db [] = [] ∧
    (findKey rid db = none →
      shoppingItems db ((rid, des) :: rest) = shoppingItems db rest) ∧
    (∀ r : Recipe, findKey rid db = some r → r.ingredients = [] →
      shoppingItems db ((rid, des) :: rest) = shoppingItems db rest) ∧
    (shoppingItems db sels).length =
      ((occurrences db sels).map Occ.key).toFinset.card := by
  refine ⟨?_, ?_, ?_, ?_⟩
  · simp [shoppingItems, ingredientTotals]
  · intro h
    simp [shoppingItems, ingredientTotals, processSelection, h]
  · intro r hr hempty
    simp [shoppingItems, ingredientTotals, processSelection, hr, hempty]
  · rw [shoppingItems, List.length_mergeSort, List.length_map]
    exact length_ingredientTotals db sels

/-! ## Claims about the scaling engine -/

/-- C2 counterexample: an ingredient whose amount is present but equal to
`0` yields a `None` scaled amount, not `round(0 * M, 2)` — Python's
truthiness test `if self.amount` treats `0.0` like `None`. -/
theorem scaled_zero_amount_not_rounded :
    (Ingredient.scaled { name := "Salt", amount := some 0, unit := none } 2).amount = none ∧
    (some (round2 ((0 : ℚ) * 2)) : Option ℚ) ≠ none := by
  exact ⟨by decide, by simp⟩

/-- C2 amended: `scaled` passes name and unit through unchanged; a
present non-zero amount becomes `round(amount * M, 2)`; an absent or
zero amount yields `None` regardless of the multiplier.  The function is
pure by construction. -/
theorem scaled_amount_spec (i : Ingredient) (m : ℚ) :
    (i.scaled m).name = i.name ∧
    (i.scaled m).unit = i.unit ∧
    (∀ a : ℚ, i.amount = some a → a ≠ 0 →
      (i.scaled m).amount = some (round2 (a * m))) ∧
    (i.amount = none ∨ i.amount = some 0 → (i.scaled m).amount = none) := by
  refine ⟨rfl, rfl, ?_, ?_⟩
  · intro a ha h0
    simp [Ingredient.scaled, ha, h0]
  · rintro (ha | ha) <;> simp [Ingredient.scaled, ha]

/-- C3: the scaling multiplier is `desired / servings` when the stored
servings value is truthy (non-`None`, non-zero) and `1` otherwise; when
the caller requests nothing, the single-recipe view falls back to the
recipe's own servings (so the multiplier is `1`), and the shopping-list
aggregation defaults each selection's desired servings to `4`. -/
theorem multiplier_derivation_and_defaults (db : DB) (r : Recipe) (d s : ℤ)
    (rid : ℕ) (rest : List (ℕ × Option ℤ)) :
    (s ≠ 0 → multiplierFrom d (some s) = (d : ℚ) / (s : ℚ)) ∧
    multiplierFrom d (some 0) = 1 ∧
    multiplierFrom d none = 1 ∧
    viewEffectiveServings none r = r.servings ∧
    viewMultiplier none r = 1 ∧
    shoppingItems db ((rid, none) :: rest) = shoppingItems db ((rid, some 4) :: rest) := by
  refine ⟨?_, ?_, rfl, ?_, ?_, ?_⟩
  · intro hs
    simp [multiplierFrom, hs]
  · simp [multiplierFrom]
  · rfl
  · cases hs : r.servings with
    | none => simp [viewMultiplier, hs]
    | some sv =>
        by_cases h0 : sv = 0
        · simp [viewMultiplier, hs, h0]
        · have hne : ((sv : ℤ) : ℚ) ≠ 0 := by exact_mod_cast h0
          simp [viewMultiplier, hs, h0, viewEffectiveServings, div_self hne]
  · simp [shoppingItems, ingredientTotals, processSelection]

/-! ## Claims about search and filtering -/

theorem matchesSearch_iff (s : String) (r : Recipe) :
    matchesSearch s r = true ↔
      containsCI r.title s = true ∨
      (∃ d, r.description = some d ∧ containsCI d s = true) ∨
      ∃ i ∈ r.ingredients, containsCI i.name s = true := by
  cases hd : r.description <;>
    simp [matchesSearch, hd, List.any_eq_true, or_assoc]

theorem recLe_trans (a b c : ℕ × Recipe) (h1 : recLe a b) (h2 : recLe b c) :
    recLe a c := by
  simp only [recLe, decide_eq_true_eq] at h1 h2 ⊢
  exact le_trans h2 h1

theorem recLe_total (a b : ℕ × Recipe) : recLe a b || recLe b a := by
  simp only [recLe, Bool.or_eq_true, decide_eq_true_eq]
  exact (le_total _ _).symm

theorem mem_findRecipes (db : DB) (s cat : String) (p : ℕ × Recipe) :
    p ∈ findRecipes db s cat ↔
      p ∈ db ∧ (s ≠ "" → matchesSearch s p.2 = true) ∧
        (cat ≠ "" → p.2.category = cat) := by
  rw [findRecipes]
  by_cases hs : s = "" <;> by_cases hc : cat = "" <;>
    simp [hs, hc, List.mem_mergeSort, List.mem_filter, and_assoc]
  all_goals tauto

theorem count_findRecipes (db : DB) (s cat : String) (p : ℕ × Recipe) :
    (findRecipes db s cat).count p =
      if (s = "" ∨ matchesSearch s p.2 = true) ∧ (cat = "" ∨ p.2.category = cat)
      then db.count p else 0 := by
  have hcm : ∀ (l : DB), (List.mergeSort l recLe).count p = l.count p := fun l => by
    rw [List.count_eq_countP, List.count_eq_countP]
    exact (List.mergeSort_perm l recLe).countP_eq _
  rw [findRecipes]
  by_cases hs : s = ""
  · by_cases hc : cat = ""
    · simp only [hs, hc, ne_eq, not_true_eq_false, ite_false]
      rw [hcm, if_pos (by tauto)]
    · simp only [hs, hc, ne_eq, not_true_eq_false, not_false_eq_true, ite_true, ite_false]
      by_cases hcat : p.2.category = cat
      · rw [hcm, List.count_filter (by simp [hcat]), if_pos (by tauto)]
      · rw [hcm, if_neg (by tauto), List.count_eq_zero]
        intro hmem
        exact hcat (by simpa using (List.mem_filter.mp hmem).2)
  · by_cases hc : cat = ""
    · simp only [hs, hc, ne_eq, not_true_eq_false, not_false_eq_true, ite_true, ite_false]
      by_cases hm : matchesSearch s p.2 = true
      · rw [hcm, List.count_filter (by simp [hm]), if_pos (by tauto)]
      · rw [hcm, if_neg (by tauto), List.count_eq_zero]
        intro hmem
        exact hm ((List.mem_filter.mp hmem).2)
    · simp only [hs, hc, ne_eq, not_false_eq_true, ite_true]
      by_cases hm : matchesSearch s p.2 = true
      · by_cases hcat : p.2.category = cat
        · rw [hcm, List.count_filter (by simp [hcat]), List.count_filter (by simp [hm]),
            if_pos (by tauto)]
        · rw [hcm, if_neg (by tauto), List.count_eq_zero]
          intro hmem
          exact hcat (by simpa using (List.mem_filter.mp hmem).2)
      · rw [hcm, if_neg (by tauto), List.count_eq_zero]
        intro hmem
        exact hm ((List.mem_filter.mp (List.mem_filter.mp hmem).1).2)

/-- C7: a recipe is returned by the search exactly when the search text
(case-insensitively) occurs in its title, its description or the name of
at least one of its ingredients, further restricted to an exact category
match when a category is given; each stored entry appears in the result
exactly as often as in the store (so a recipe stored once appears once
however many of its ingredients match); and the result is ordered by
`updated_at` descending. -/
theorem search_filter_spec (db : DB) (s cat : String) :
    (∀ p : ℕ × Recipe,
      p ∈ findRecipes db s cat ↔
        p ∈ db ∧
        (s ≠ "" → (containsCI p.2.title s = true ∨
          (∃ d, p.2.description = some d ∧ containsCI d s = true) ∨
          ∃ i ∈ p.2.ingredients, containsCI i.name s = true)) ∧
        (cat ≠ "" → p.2.category = cat)) ∧
    (∀ p : ℕ × Recipe,
      (findRecipes db s cat).count p =
        if (s = "" ∨ matchesSearch s p.2 = true) ∧ (cat = "" ∨ p.2.category = cat)
        then db.count p else 0) ∧
    (findRecipes db s cat).Pairwise (fun a b => b.2.updated_at ≤ a.2.updated_at) := by
  refine ⟨?_, ?_, ?_⟩
  · intro p
    rw [mem_findRecipes]
    constructor
    · rintro ⟨h1, h2, h3⟩
      exact ⟨h1, fun hs => (matchesSearch_iff s p.2).mp (h2 hs), h3⟩
    · rintro ⟨h1, h2, h3⟩
      exact ⟨h1, fun hs => (matchesSearch_iff s p.2).mpr (h2 hs), h3⟩
  · exact count_findRecipes db s cat
  · have h := List.sorted_mergeSort recLe_trans recLe_total
      (if cat ≠ "" then
        (if s ≠ "" then db.filter (fun p => matchesSearch s p.2) else db).filter
          (fun p => decide (p.2.category = cat))
      else if s ≠ "" then db.filter (fun p => matchesSearch s p.2) else db)
    rw [findRecipes]
    exact h.imp (by intro a b hab; simpa [recLe] using hab)

/-! ## Lemmas about stripping and the stored state -/

theorem dropWhile_dropWhile {α : Type} (p : α → Bool) (l : List α) :
    (l.dropWhile p).dropWhile p = l.dropWhile p := by
  induction l with
  | nil => rfl
  | cons a l ih =>
      by_cases h : p a
      · simp [List.dropWhile_cons, h, ih]
      · simp [List.dropWhile_cons, h]

theorem exists_append_dropWhile {α : Type} (p : α → Bool) (l : List α) :
    ∃ s, s ++ l.dropWhile p = l := by
  induction l with
  | nil => exact ⟨[], rfl⟩
  | cons a l ih =>
      by_cases h : p a
      · obtain ⟨s, hs⟩ := ih
        exact ⟨a :: s, by simp [List.dropWhile_cons, h, hs]⟩
      · exact ⟨[], by simp [List.dropWhile_cons, h]⟩

/-- Right-stripping a list that has no leading whitespace leaves no
leading whitespace either. -/
theorem dropWhile_reverse_dropWhile {α : Type} (p : α → Bool) (t : List α)
    (ht : t.dropWhile p = t) :
    ((t.reverse.dropWhile p).reverse).dropWhile p = (t.reverse.dropWhile p).reverse := by
  obtain ⟨s, hs⟩ := exists_append_dropWhile p t.reverse
  have hsplit : t = (t.reverse.dropWhile p).reverse ++ s.reverse := by
    have := congrArg List.reverse hs
    simpa [List.reverse_append] using this.symm
  cases hw : (t.reverse.dropWhile p).reverse with
  | nil => rfl
  | cons a w =>
      rw [List.dropWhile_cons]
      by_cases hp : p a
      · exfalso
        rw [hw] at hsplit
        have ht' := ht
        rw [hsplit] at ht'
        rw [List.cons_append, List.dropWhile_cons, if_pos hp] at ht'
        have hlen := congrArg List.length ht'
        have hle : (List.dropWhile p (w ++ s.reverse)).length ≤ (w ++ s.reverse).length :=
          (List.dropWhile_sublist p).length_le
        simp only [List.length_cons, List.length_append] at hlen hle
        omega
      · rw [if_neg hp]

theorem stripChars_idem (l : List Char) : stripChars (stripChars l) = stripChars l := by
  have h1 : (l.dropWhile Char.isWhitespace).dropWhile Char.isWhitespace =
      l.dropWhile Char.isWhitespace := dropWhile_dropWhile _ l
  have h2 := dropWhile_reverse_dropWhile Char.isWhitespace
    (l.dropWhile Char.isWhitespace) h1
  show stripChars (stripChars l) = stripChars l
  unfold stripChars
  rw [show ((((l.dropWhile Char.isWhitespace).reverse.dropWhile
      Char.isWhitespace).reverse).dropWhile Char.isWhitespace) =
      ((l.dropWhile Char.isWhitespace).reverse.dropWhile Char.isWhitespace).reverse from h2]
  rw [List.reverse_reverse, dropWhile_dropWhile]

theorem pyStrip_idem (s : String) : pyStrip (pyStrip s) = pyStrip s := by
  show (⟨stripChars (stripChars s.data)⟩ : String) = ⟨stripChars s.data⟩
  rw [stripChars_idem]

theorem findKey_some_mem {α β : Type} [DecidableEq α] (k : α) (v : β)
    (l : List (α × β)) (h : findKey k l = some v) : (k, v) ∈ l := by
  induction l with
  | nil => simp [findKey] at h
  | cons kv rest ih =>
      by_cases hk : kv.1 = k
      · rw [findKey, if_pos hk] at h
        have hv : kv.2 = v := Option.some.inj h
        have : kv = (k, v) := by
          cases kv
          simp_all
        rw [← this]
        exact List.mem_cons_self kv rest
      · rw [findKey, if_neg hk] at h
        exact List.mem_cons_of_mem kv (ih h)

/-! ## Claims about create, edit and delete -/

/-- C8 counterexample: a create submission whose title is present but
empty is not rejected — the store accepts it and a recipe row with the
empty title is persisted. -/
theorem empty_title_persisted :
    (newRecipe { recipes := [], ingRows := [], nextId := 0 } { title := some "" }).map
        (fun st => st.recipes.map (fun q => q.2.title)) = Except.ok [""] ∧
    (newRecipe { recipes := [], ingRows := [], nextId := 0 } { title := some "" }).map
        (fun st => st.recipes.length) = Except.ok 1 := by
  exact ⟨rfl, rfl⟩

/-- C8 amended: a submission whose title field is missing is rejected
before persistence — neither create nor edit touches the store; a
submission whose title is present (even the empty string) is not
rejected: a recipe row carrying that title is persisted. -/
theorem title_missing_rejected (st : Store) (rid : ℕ) (f : RecipeForm) :
    (f.title = none →
      newRecipe st f = Except.error () ∧ editRecipe st rid f = Except.error ()) ∧
    (∀ t, f.title = some t → ∃ st', newRecipe st f = Except.ok st' ∧
      st'.recipes = st.recipes ++ [(st.nextId, rowOfForm t f)]) := by
  constructor
  · intro ht
    constructor
    · rw [newRecipe, ht]
    · rw [editRecipe]
      cases findKey rid st.recipes
      · rfl
      · rw [ht]
  · intro t ht
    rw [newRecipe, ht]
    exact ⟨_, rfl, rfl⟩

/-- C9: every ingredient triple a submission persists carries a
non-empty, whitespace-stripped name (rows empty after stripping are
silently dropped before persistence), and both the create and the
full-replace edit operation preserve the invariant that every stored
ingredient's name is non-empty and equal to its stripped form. -/
theorem ingredient_name_trimmed_invariant :
    (∀ (f : RecipeForm), ∀ t ∈ buildIngredients f, pyStrip t.1 = t.1 ∧ t.1 ≠ "") ∧
    (∀ (st : Store) (f : RecipeForm) (st' : Store),
      newRecipe st f = Except.ok st' → ingNamesOk st → ingNamesOk st') ∧
    (∀ (st : Store) (rid : ℕ) (f : RecipeForm) (st' : Store),
      editRecipe st rid f = Except.ok st' → ingNamesOk st → ingNamesOk st') := by
  have hbuild : ∀ (f : RecipeForm), ∀ t ∈ buildIngredients f,
      pyStrip t.1 = t.1 ∧ t.1 ≠ "" := by
    intro f t ht
    rw [buildIngredients] at ht
    obtain ⟨u, hu, hut⟩ := List.mem_map.mp ht
    have hne : pyStrip u.1 ≠ "" := by
      have := (List.mem_filter.mp hu).2
      simpa using this
    constructor
    · rw [← hut]
      exact pyStrip_idem u.1
    · rw [← hut]
      exact hne
  have hrows : ∀ (rid : ℕ) (f : RecipeForm), ∀ i ∈ rowsFor rid f,
      pyStrip i.name = i.name ∧ i.name ≠ "" := by
    intro rid f i hi
    rw [rowsFor] at hi
    obtain ⟨t, ht, hti⟩ := List.mem_map.mp hi
    have := hbuild f t ht
    rw [← hti]
    exact this
  refine ⟨hbuild, ?_, ?_⟩
  · intro st f st' hok hinv
    cases hft : f.title with
    | none => rw [newRecipe, hft] at hok; cases hok
    | some t =>
        rw [newRecipe, hft] at hok
        have hst : st'.ingRows = st.ingRows ++ rowsFor st.nextId f := by
          cases hok
          rfl
        intro i hi
        rw [hst] at hi
        rcases List.mem_append.mp hi with hl | hr
        · exact hinv i hl
        · exact hrows st.nextId f i hr
  · intro st rid f st' hok hinv
    rw [editRecipe] at hok
    cases hres : findKey rid st.recipes with
    | none => rw [hres] at hok; cases hok
    | some r =>
        rw [hres] at hok
        cases hft : f.title with
        | none => rw [hft] at hok; cases hok
        | some t =>
            rw [hft] at hok
            have hst : st'.ingRows =
                st.ingRows.filter (fun i => decide (i.recipe_id ≠ rid)) ++ rowsFor rid f := by
              cases hok
              rfl
            intro i hi
            rw [hst] at hi
            rcases List.mem_append.mp hi with hl | hr
            · exact hinv i (List.mem_of_mem_filter hl)
            · exact hrows rid f i hr

/-- C10: deleting a recipe removes every owned ingredient row in the
same operation (no row referencing the deleted id survives), and
referential integrity — every stored ingredient row points to an
existing recipe row — is preserved by delete, create and edit. -/
theorem delete_cascades_and_ref_integrity :
    (∀ (st : Store) (rid : ℕ) (st' : Store), deleteRecipe st rid = Except.ok st' →
      ∀ i ∈ st'.ingRows, i.recipe_id ≠ rid) ∧
    (∀ (st : Store) (rid : ℕ) (st' : Store), deleteRecipe st rid = Except.ok st' →
      refIntegrity st → refIntegrity st') ∧
    (∀ (st : Store) (f : RecipeForm) (st' : Store), newRecipe st f = Except.ok st' →
      refIntegrity st → refIntegrity st') ∧
    (∀ (st : Store) (rid : ℕ) (f : RecipeForm) (st' : Store),
      editRecipe st rid f = Except.ok st' → refIntegrity st → refIntegrity st') := by
  refine ⟨?_, ?_, ?_, ?_⟩
  · intro st rid st' hok i hi
    rw [deleteRecipe] at hok
    cases hres : findKey rid st.recipes with
    | none => rw [hres] at hok; cases hok
    | some r =>
        rw [hres] at hok
        have hst : st'.ingRows = st.ingRows.filter (fun i => decide (i.recipe_id ≠ rid)) := by
          cases hok
          rfl
        rw [hst] at hi
        have := (List.mem_filter.mp hi).2
        simpa using this
  · intro st rid st' hok hinv i hi
    rw [deleteRecipe] at hok
    cases hres : findKey rid st.recipes with
    | none => rw [hres] at hok; cases hok
    | some r =>
        rw [hres] at hok
        have hrec : st'.recipes = st.recipes.filter (fun q => decide (q.1 ≠ rid)) := by
          cases hok
          rfl
        have hing : st'.ingRows = st.ingRows.filter (fun i => decide (i.recipe_id ≠ rid)) := by
          cases hok
          rfl
        rw [hing] at hi
        have hiold := List.mem_of_mem_filter hi
        have hid : i.recipe_id ≠ rid := by
          have := (List.mem_filter.mp hi).2
          simpa using this
        obtain ⟨q, hq, hq1⟩ := hinv i hiold
        refine ⟨q, ?_, hq1⟩
        rw [hrec]
        apply List.mem_filter.mpr
        refine ⟨hq, ?_⟩
        simp [hq1, hid]
  · intro st f st' hok hinv i hi
    cases hft : f.title with
    | none => rw [newRecipe, hft] at hok; cases hok
    | some t =>
        rw [newRecipe, hft] at hok
        have hrec : st'.recipes = st.recipes ++ [(st.nextId, rowOfForm t f)] := by
          cases hok
          rfl
        have hing : st'.ingRows = st.ingRows ++ rowsFor st.nextId f := by
          cases hok
          rfl
        rw [hing] at hi
        rcases List.mem_append.mp hi with hl | hr
        · obtain ⟨q, hq, hq1⟩ := hinv i hl
          exact ⟨q, by rw [hrec]; exact List.mem_append_left _ hq, hq1⟩
        · have hid : i.recipe_id = st.nextId := by
            rw [rowsFor] at hr
            obtain ⟨u, _, hui⟩ := List.mem_map.mp hr
            rw [← hui]
          refine ⟨(st.nextId, rowOfForm t f), ?_, hid.symm⟩
          rw [hrec]
          exact List.mem_append_right _ (List.mem_singleton.mpr rfl)
  · intro st rid f st' hok hinv i hi
    rw [editRecipe] at hok
    cases hres : findKey rid st.recipes with
    | none => rw [hres] at hok; cases hok
    | some r =>
        rw [hres] at hok
        cases hft : f.title with
        | none => rw [hft] at hok; cases hok
        | some t =>
            rw [hft] at hok
            have hrec : st'.recipes =
                st.recipes.map (fun q => if q.1 = rid then (rid, rowOfForm t f) else q) := by
              cases hok
              rfl
            have hing : st'.ingRows =
                st.ingRows.filter (fun i => decide (i.recipe_id ≠ rid)) ++ rowsFor rid f := by
              cases hok
              rfl
            rw [hing] at hi
            rcases List.mem_append.mp hi with hl | hr
            · have hiold := List.mem_of_mem_filter hl
              have hid : i.recipe_id ≠ rid := by
                have := (List.mem_filter.mp hl).2
                simpa using this
              obtain ⟨q, hq, hq1⟩ := hinv i hiold
              have hqrid : ¬ q.1 = rid := by rw [hq1]; exact hid
              refine ⟨q, ?_, hq1⟩
              rw [hrec]
              have himg := List.mem_map_of_mem
                (fun q => if q.1 = rid then (rid, rowOfForm t f) else q) hq
              simpa [hqrid] using himg
            · have hid : i.recipe_id = rid := by
                rw [rowsFor] at hr
                obtain ⟨u, _, hui⟩ := List.mem_map.mp hr
                rw [← hui]
              have hmem := findKey_some_mem rid r st.recipes hres
              refine ⟨(rid, rowOfForm t f), ?_, hid.symm⟩
              rw [hrec]
              have himg := List.mem_map_of_mem
                (fun q => if q.1 = rid then (rid, rowOfForm t f) else q) hmem
              simpa using himg

/-! ## Concrete witnesses -/

theorem scaled_amount_spec_witness :
    (Ingredient.scaled { name := "Flour", amount := some 2, unit := some "cup" } 3).amount =
      some (round2 (2 * 3)) ∧
    (Ingredient.scaled { name := "Pepper", amount := none, unit := none } 5).amount = none := by
  exact ⟨(scaled_amount_spec { name := "Flour", amount := some 2, unit := some "cup" } 3).2.2.1
           2 rfl (by norm_num),
         (scaled_amount_spec { name := "Pepper", amount := none, unit := none } 5).2.2.2
           (Or.inl rfl)⟩

theorem multiplier_derivation_and_defaults_witness :
    multiplierFrom 8 (some 2) = (8 : ℚ) / 2 ∧
    viewMultiplier none { title := "T", ingredients := [] } = 1 ∧
    shoppingItems [] ((7, none) :: []) = shoppingItems [] ((7, some 4) :: []) := by
  refine ⟨(multiplier_derivation_and_defaults [] { title := "T", ingredients := [] }
      8 2 7 []).1 (by decide), ?_, ?_⟩
  · exact (multiplier_derivation_and_defaults [] { title := "T", ingredients := [] }
      8 2 7 []).2.2.2.2.1
  · exact (multiplier_derivation_and_defaults [] { title := "T", ingredients := [] }
      8 2 7 []).2.2.2.2.2

theorem shopping_list_sorted_stable_provenance_witness :
    findKey ("sugar", "cup") (ingredientTotals dbSugar [(1, some 2)]) =
      some { name := "Sugar", amount := 3, unit := "cup", recipes := ["R", "R"] } := by
  have h := (shopping_list_sorted_stable_provenance dbSugar [(1, some 2)]).2.2
    ("sugar", "cup") occSugar1 [occSugar2] (by decide)
  rw [h]
  norm_num [Occ.scaledAmt, occSugar1, occSugar2]

theorem shopping_list_totals_perm_invariant_witness :
    List.Perm ((ingredientTotals dbFlour [(1, some 1), (2, some 1)]).map Prod.fst)
        ((ingredientTotals dbFlour [(2, some 1), (1, some 1)]).map Prod.fst) ∧
    (findKey ("flour", "cup") (ingredientTotals dbFlour [(1, some 1), (2, some 1)])).map
        (fun it => (it.amount, it.unit)) =
      (findKey ("flour", "cup") (ingredientTotals dbFlour [(2, some 1), (1, some 1)])).map
        (fun it => (it.amount, it.unit)) := by
  have h := shopping_list_totals_perm_invariant dbFlour [(1, some 1), (2, some 1)]
    [(2, some 1), (1, some 1)] (List.Perm.swap (2, some 1) (1, some 1) [])
  exact ⟨h.1, h.2 ("flour", "cup")⟩

theorem shopping_list_total_and_length_witness :
    shoppingItems dbEmptyRec [] = [] ∧
    shoppingItems dbEmptyRec [(2, none)] = shoppingItems dbEmptyRec [] ∧
    shoppingItems dbEmptyRec [(1, none)] = shoppingItems dbEmptyRec [] ∧
    (shoppingItems dbEmptyRec [(1, none)]).length =
      ((occurrences dbEmptyRec [(1, none)]).map Occ.key).toFinset.card := by
  refine ⟨(shopping_list_total_and_length dbEmptyRec 2 none [] []).1,
          (shopping_list_total_and_length dbEmptyRec 2 none [] []).2.1 rfl,
          (shopping_list_total_and_length dbEmptyRec 1 none [] []).2.2.1
            { title := "E", servings := some 0, ingredients := [] } rfl rfl,
          (shopping_list_total_and_length dbEmptyRec 1 none [] [(1, none)]).2.2.2⟩

theorem search_filter_spec_witness :
    (1, recPie) ∈ findRecipes [(1, recPie)] "apple" "" := by
  apply ((search_filter_spec [(1, recPie)] "apple" "").1 (1, recPie)).mpr
  refine ⟨List.mem_singleton.mpr rfl, ?_, ?_⟩
  · intro _
    exact Or.inl (by decide)
  · intro hc
    exact absurd rfl hc

theorem title_missing_rejected_witness :
    (newRecipe { recipes := [], ingRows := [], nextId := 0 } { title := none } =
        Except.error () ∧
      editRecipe { recipes := [], ingRows := [], nextId := 0 } 3 { title := none } =
        Except.error ()) ∧
    ∃ st', newRecipe { recipes := [], ingRows := [], nextId := 0 } { title := some "Cake" } =
        Except.ok st' ∧
      st'.recipes = [] ++ [(0, rowOfForm "Cake" { title := some "Cake" })] := by
  exact ⟨(title_missing_rejected { recipes := [], ingRows := [], nextId := 0 } 3
            { title := none }).1 rfl,
         (title_missing_rejected { recipes := [], ingRows := [], nextId := 0 } 3
            { title := some "Cake" }).2 "Cake" rfl⟩

theorem ingredient_name_trimmed_invariant_witness :
    ingNamesOk { recipes := [(0, rowOfForm "Cake" formCake)]
               , ingRows := [{ recipe_id := 0, name := "Flour", amount := some 1
                             , unit := some "cup" }]
               , nextId := 1 } := by
  apply ingredient_name_trimmed_invariant.2.1
    { recipes := [], ingRows := [], nextId := 0 } formCake _ rfl
  intro i hi
  cases hi

theorem delete_cascades_and_ref_integrity_witness :
    refIntegrity { recipes := [], ingRows := [], nextId := 2 } := by
  apply delete_cascades_and_ref_integrity.2.1
    { recipes := [(1, rowLemon)]
    , ingRows := [{ recipe_id := 1, name := "lemon", amount := none, unit := none }]
    , nextId := 2 } 1 _ rfl
  intro i hi
  rcases List.mem_singleton.mp hi with rfl
  exact ⟨(1, rowLemon), List.mem_singleton.mpr rfl, rfl⟩

end RecipeManager
